import Mathlib

/-!
Verification of the Chronos chat-bridge logic of this repository.

The subsystem under study is the bridge between the Chronos analysis
subprocess and chat-platform delivery:

* the Telegram handler in `src/plugin.ts` (result-block extraction via the
  `TELEGRAM_RESULTS_START/END` regex, the `---`-split question/answer parser,
  and the paragraph-splitting dispatch loop), and
* the Discord handler given verbatim in
  `DISCORD_CHRONOS_INTEGRATION_INSTRUCTIONS.md` (the 1900-character
  length-bounded chunking loop with sentence/newline breakpoints).

JavaScript strings are modelled as `List Char`; every function below is a
direct transcription of the corresponding JavaScript, with the JS string
primitives (`split`, `trim`, `startsWith`, `lastIndexOf`, `substring`)
modelled explicitly.
-/

set_option maxRecDepth 40000

/-- Whitespace as recognised by JavaScript `String.prototype.trim`
(restricted to the code points that can occur here; the handlers only ever
produce ASCII whitespace). -/
def jsWS (c : Char) : Bool :=
  c == ' ' || c == '\t' || c == '\n' || c == '\r' || c == '\x0b' || c == '\x0c'

/-- A JavaScript string, as its list of characters. -/
def strL (s : String) : List Char := s.data

/-- Decimal rendering of a number, as produced by a JS template literal. -/
def natL (n : Nat) : List Char := (Nat.repr n).data

/-- `leadsWith pat s` is JS `s.startsWith(pat)`. -/
def leadsWith : List Char → List Char → Bool
  | [], _ => true
  | _ :: _, [] => false
  | p :: ps, c :: cs => p == c && leadsWith ps cs

/-- Whether `pat` occurs as a contiguous substring of `s`
(JS `s.includes(pat)`, equivalently `s.indexOf(pat) !== -1`). -/
def hasSub (pat : List Char) : List Char → Bool
  | [] => leadsWith pat []
  | c :: rest => leadsWith pat (c :: rest) || hasSub pat rest

/-- Split `s` at the first occurrence of `pat`, returning the text before
the occurrence and the text after it (JS `s.indexOf` followed by the two
`substring`s); `none` when `pat` does not occur. -/
def breakOnSub (pat : List Char) : List Char → Option (List Char × List Char)
  | [] => if leadsWith pat [] then some ([], []) else none
  | c :: rest =>
    if leadsWith pat (c :: rest) then some ([], List.drop (pat.length - 1) rest)
    else
      match breakOnSub pat rest with
      | some (pre, post) => some (c :: pre, post)
      | none => none

/-- Accumulator loop of JS `s.split(sep)`: scan left to right, cutting at
each non-overlapping occurrence of `sep`.  The `Nat` argument is an upper
bound on the number of scan steps, making the recursion structural (every
step consumes at least one character, so `s.length` always suffices; the
fuel-exhausted branch is unreachable then). -/
def splitOnSubAux (sep : List Char) : Nat → List Char → List Char → List (List Char)
  | _, [], acc => [acc.reverse]
  | 0, s, acc => [acc.reverse ++ s]
  | fuel + 1, c :: rest, acc =>
    if leadsWith sep (c :: rest) then
      acc.reverse :: splitOnSubAux sep fuel (List.drop (sep.length - 1) rest) []
    else
      splitOnSubAux sep fuel rest (c :: acc)

/-- JS `s.split(sep)` for a non-empty separator. -/
def splitOnSub (sep s : List Char) : List (List Char) := splitOnSubAux sep s.length s []

/-- JS `s.trim()`: strip leading and trailing whitespace. -/
def trimL (s : List Char) : List Char :=
  (((s.dropWhile jsWS).reverse).dropWhile jsWS).reverse

/-- Accumulator loop of JS `s.lastIndexOf(pat)`: remember the index of the
last position at which `pat` starts; `-1` when there is none. -/
def lastIdxAux (pat : List Char) : List Char → Nat → Int → Int
  | [], _, acc => acc
  | c :: rest, i, acc =>
    lastIdxAux pat rest (i + 1) (if leadsWith pat (c :: rest) then (i : Int) else acc)

/-- JS `s.lastIndexOf(pat)` (for the non-empty patterns `". "` and `"\n"`
used by the Discord chunking loop). -/
def lastIdx (pat s : List Char) : Int := lastIdxAux pat s 0 (-1)

/-! ## Telegram handler model (`src/plugin.ts`, TELEGRAM_MESSAGE_RECEIVED) -/

/-- The record-separator token the parser splits on: `'---'`. -/
def dashes : List Char := List.replicate 3 '-'

/-- The field separator `':::'` between a tag and its value. -/
def cccL : List Char := List.replicate 3 ':'

/-- The tag prefix tested by `line.startsWith('QUESTION_')`. -/
def qTagL : List Char := strL "QUESTION_"

/-- The tag prefix tested by `line.startsWith('ANSWER_')`. -/
def aTagL : List Char := strL "ANSWER_"

/-- The per-group scan state of the parser loop in the Telegram handler:
`currentQuestion`, `currentAnswerLines` and the `inAnswer` flag. -/
structure GroupState where
  q : List Char
  ans : List (List Char)
  inAnswer : Bool
deriving DecidableEq

/-- Initial scan state: empty question, no answer lines, not in an answer. -/
def initGS : GroupState := ⟨[], [], false⟩

/-- One iteration of the `for (const line of lines)` loop of the Telegram
parser (`plugin.ts` lines 498-510). -/
def scanLine (st : GroupState) (line : List Char) : GroupState :=
  if leadsWith qTagL line then
    match (splitOnSub cccL line).get? 1 with
    | some q => if q.isEmpty then st else { st with q := trimL q }
    | none => st
  else if leadsWith aTagL line then
    let st' :=
      match (splitOnSub cccL line).get? 1 with
      | some a => if a.isEmpty then st else { st with ans := st.ans ++ [trimL a] }
      | none => st
    { st' with inAnswer := true }
  else if st.inAnswer && !(trimL line).isEmpty then
    { st with ans := st.ans ++ [trimL line] }
  else st

/-- Scan the lines of one `---`-separated group. -/
def scanLines (lines : List (List Char)) : GroupState :=
  lines.foldl scanLine initGS

/-- Scan one raw group text: `pair.trim().split('\n')` then the line loop. -/
def scanGroup (p : List Char) : GroupState :=
  scanLines (splitOnSub (strL "\n") (trimL p))

/-- `resultsBlock.split('---').filter(pair => pair.trim().length > 0)`
(`plugin.ts` line 490): the candidate Q/A groups. -/
def qaGroups (block : List Char) : List (List Char) :=
  (splitOnSub dashes block).filter (fun p => !(trimL p).isEmpty)

/-- The `questions` array built by the Telegram parser: one entry per group
whose scan produced a non-empty `currentQuestion`. -/
def parseQuestions (block : List Char) : List (List Char) :=
  (qaGroups block).filterMap fun p =>
    let st := scanGroup p
    if st.q.isEmpty then none else some st.q

/-- The `answers` array built by the Telegram parser: one entry per group
whose scan collected at least one answer line, the lines re-joined with
`'\n\n'`. -/
def parseAnswers (block : List Char) : List (List Char) :=
  (qaGroups block).filterMap fun p =>
    let st := scanGroup p
    if st.ans.isEmpty then none else some (List.intercalate (strL "\n\n") st.ans)

/-- The number of records the Telegram dispatch loop iterates over:
`Math.min(questions.length, answers.length)` (`plugin.ts` line 521). -/
def teleRecordCount (block : List Char) : Nat :=
  min (parseQuestions block).length (parseAnswers block).length

/-- The messages sent for the record at index `i` with question `q` and
answer `a` under the Telegram paragraph policy (`plugin.ts` lines 526-554):
split the answer at `'\n\n'`, drop blank paragraphs, send the first
paragraph (or, when no paragraph survives, the whole answer) together with
the numbered question, then each later paragraph as a `Continuation:`. -/
def teleRecordMsgs (i : Nat) (q a : List Char) : List (List Char) :=
  let paragraphs := (splitOnSub (strL "\n\n") a).filter (fun p => !(trimL p).isEmpty)
  match paragraphs with
  | [] => [strL "\n" ++ natL (i + 1) ++ strL ". " ++ q ++ strL "\n\nAnswer: " ++ a]
  | p0 :: rest =>
    (strL "\n" ++ natL (i + 1) ++ strL ". " ++ q ++ strL "\n\nAnswer: " ++ p0)
      :: rest.map (fun p => strL "Continuation: " ++ p)

/-- Concatenate `f i` over a list of indices, in order: the message trace of
a sequential `for` loop over those indices. -/
def concatIdx (f : Nat → List (List Char)) (l : List Nat) : List (List Char) :=
  l.foldr (fun i acc => f i ++ acc) []

/-- The full message trace of the Telegram per-record send loop
(`plugin.ts` lines 521-555): records in index order, each record's
messages in order, strictly sequentially. -/
def teleDispatch (qs ansL : List (List Char)) : List (List Char) :=
  concatIdx (fun i => teleRecordMsgs i (qs.getD i []) (ansL.getD i []))
    (List.range (min qs.length ansL.length))

/-- The literal text matched before the captured block:
`TELEGRAM_RESULTS_START`, newline, 80 `=`, newline. -/
def startFullT : List Char := strL "TELEGRAM_RESULTS_START\n" ++ List.replicate 80 '=' ++ strL "\n"

/-- The literal text matched after the captured block:
newline, 80 `=`, newline, `TELEGRAM_RESULTS_END`. -/
def endFullT : List Char := strL "\n" ++ List.replicate 80 '=' ++ strL "\nTELEGRAM_RESULTS_END"

/-- The result-block extractor: the regex
`TELEGRAM_RESULTS_START\n={80}\n([\s\S]*?)\n={80}\nTELEGRAM_RESULTS_END`
applied to stdout (`plugin.ts` line 480).  The left-most match starts at
the first occurrence of the start pattern, and the non-greedy capture ends
at the first occurrence of the end pattern after it; `none` when the
pattern is absent. -/
def extractBlock (s : List Char) : Option (List Char) :=
  match breakOnSub startFullT s with
  | none => none
  | some (_, rest) =>
    match breakOnSub endFullT rest with
    | none => none
    | some (block, _) => some block

/-- The fixed notice sent when no results block was found in stdout
(`plugin.ts` line 572). -/
def noBlockMsg : List Char :=
  strL "⚠️ Processing completed but results could not be parsed.\n\nCheck the logs for detailed output."

/-- The fixed notice sent when a block was found but no valid records were
parsed (`plugin.ts` line 562). -/
def noResultsMsg : List Char :=
  strL "⚠️ Processing completed but no hypothesis results were generated.\n\nThis might happen if:\n- No patterns were found in the image\n- The image text was too short\n- OCR extraction failed\n\nCheck the server logs for details."

/-- The messages the Telegram handler sends after the Chronos subprocess
returns, as a function of the subprocess stdout (`plugin.ts` lines
479-576).  Note `resultsMatch && resultsMatch[1]` treats an empty capture
like a missing block. -/
def teleTrace (stdout : List Char) : List (List Char) :=
  match extractBlock stdout with
  | none => [noBlockMsg]
  | some block =>
    if block.isEmpty then [noBlockMsg]
    else
      let qs := parseQuestions block
      let ansL := parseAnswers block
      if !qs.isEmpty && !ansL.isEmpty then teleDispatch qs ansL
      else [noResultsMsg]

/-! ## Discord handler model
(`DISCORD_CHRONOS_INTEGRATION_INSTRUCTIONS.md`, DISCORD_MESSAGE_RECEIVED) -/

/-- `DISCORD_MAX_LENGTH` (1900) minus the 50-character label buffer:
`const chunkSize = DISCORD_MAX_LENGTH - 50`. -/
def chunkSizeD : Nat := 1900 - 50

/-- The breakpoint the chunking loop searches for in the candidate chunk:
`Math.max(chunk.lastIndexOf('. '), chunk.lastIndexOf('\n'))`, with `-1`
when neither occurs. -/
def discordBp (r : List Char) : Int :=
  max (lastIdx (strL ". ") (r.take chunkSizeD)) (lastIdx (strL "\n") (r.take chunkSizeD))

/-- One chunk of the Discord splitting loop: the first `chunkSize`
characters of the remaining answer, cut back to `breakPoint + 1` when more
answer remains and `breakPoint > chunkSize * 0.7`.  (In IEEE-754 double
arithmetic `1850 * 0.7` evaluates to exactly `1295`, which also equals the
exact real product, so the comparison is `breakPoint > 1295` over the
integers.) -/
def firstChunk (r : List Char) : List Char :=
  if chunkSizeD < r.length then
    if 1295 < discordBp r then (r.take chunkSizeD).take ((discordBp r).toNat + 1)
    else r.take chunkSizeD
  else r.take chunkSizeD

/-- The remaining answer after one chunk is emitted:
`remainingAnswer.substring(chunk.length).trim()`. -/
def nextRem (r : List Char) : List Char := trimL (r.drop (firstChunk r).length)

/-- Iterations of the `while (remainingAnswer.length > 0)` splitting loop.
The `Nat` argument is an upper bound on the number of iterations, making
the recursion structural (every iteration consumes at least one character,
so `r.length` always suffices; the fuel-exhausted branch is unreachable
then). -/
def answerChunksGo : Nat → List Char → List (List Char)
  | 0, _ => []
  | fuel + 1, r => if r = [] then [] else firstChunk r :: answerChunksGo fuel (nextRem r)

/-- The `while (remainingAnswer.length > 0)` splitting loop: the ordered
list of `answerChunks` pushed for the answer `r`. -/
def answerChunks (r : List Char) : List (List Char) := answerChunksGo r.length r

/-- Apply an index-aware function along a list, indices starting at `i0`. -/
def mapWithIdx (f : Nat → List Char → List Char) : Nat → List (List Char) → List (List Char)
  | _, [] => []
  | i, c :: cs => f i c :: mapWithIdx f (i + 1) cs

/-- The message built for the chunk at 0-based index `j`:
`const prefix = j === 0 ? '' : `Answer (part ${j + 1}): `` then
`prefix + answerChunks[j]`. -/
def labelChunk (j : Nat) (c : List Char) : List Char :=
  if j = 0 then c else strL "Answer (part " ++ natL (j + 1) ++ strL "): " ++ c

/-- The sequence of chunk messages sent for a long answer. -/
def discordAnswerMsgs (a : List Char) : List (List Char) :=
  mapWithIdx labelChunk 0 (answerChunks a)

/-- The header-only message sent before the chunks of a long answer:
`` `\n${i + 1}. ${question}\n\nAnswer (part 1):` ``. -/
def discordHeader (i : Nat) (q : List Char) : List Char :=
  strL "\n" ++ natL (i + 1) ++ strL ". " ++ q ++ strL "\n\nAnswer (part 1):"

/-- The single-message text for a record that fits:
`` `\n${i + 1}. ${question}\n\n` + `Answer: ${answer}` ``. -/
def discordMessageText (i : Nat) (q a : List Char) : List Char :=
  strL "\n" ++ natL (i + 1) ++ strL ". " ++ q ++ strL "\n\n" ++ strL "Answer: " ++ a

/-- All messages sent for one record under the Discord length-bounded
policy: the single message when it fits within `DISCORD_MAX_LENGTH`
(1900), otherwise the header-only message followed by the labeled answer
chunks. -/
def discordRecordMsgs (i : Nat) (q a : List Char) : List (List Char) :=
  if 1900 < (discordMessageText i q a).length then
    discordHeader i q :: discordAnswerMsgs a
  else [discordMessageText i q a]

/-! ## Spec-side definitions used to compare against the code

These two definitions follow the words of the claims being checked, not
the source; each is compared with the corresponding source-derived
definition above. -/

/-- The chunk selection as the claim words it: cut at the breakpoint when
its offset is at least `0.7 × budget` (`0.7 × 1850 = 1295`), otherwise
keep the hard cut at `budget` characters. -/
def specBreakpointChunk (r : List Char) : List Char :=
  let cand := r.take chunkSizeD
  if chunkSizeD < r.length then
    if 1295 ≤ discordBp r then cand.take ((discordBp r).toNat + 1) else cand
  else cand

/-- Interleave chunks with filler strings: `c₁ ++ w₁ ++ c₂ ++ w₂ ++ …`. -/
def joinWithWs : List (List Char) → List (List Char) → List Char
  | [], _ => []
  | c :: cs, [] => c ++ joinWithWs cs []
  | c :: cs, w :: ws => c ++ w ++ joinWithWs cs ws

/-- The round-trip property as the claim words it: the original answer is
recovered by re-inserting at most one whitespace character after each
chunk. -/
def SpecRoundTripSingleWs (a : List Char) : Prop :=
  ∃ ws : List (List Char),
    ws.length = (answerChunks a).length ∧
    (∀ w ∈ ws, w.length ≤ 1 ∧ ∀ c ∈ w, jsWS c = true) ∧
    joinWithWs (answerChunks a) ws = a

/-- `Reassembles cs a` says the original text `a` is exactly the chunks
`cs` in order, with a run of whitespace (possibly empty, possibly several
characters) after each chunk. -/
inductive Reassembles : List (List Char) → List Char → Prop
  | ws (w : List Char) : (∀ c ∈ w, jsWS c = true) → Reassembles [] w
  | cons (c w rest : List Char) (cs : List (List Char)) :
      (∀ x ∈ w, jsWS x = true) → Reassembles cs rest →
      Reassembles (c :: cs) (c ++ w ++ rest)

/-! ## Basic lemmas about the string primitives -/

theorem leadsWith_eq_nil (pat : List Char) (h : leadsWith pat [] = true) : pat = [] := by
  cases pat with
  | nil => rfl
  | cons p ps => simp [leadsWith] at h

theorem leadsWith_decomp :
    ∀ (pat s : List Char), leadsWith pat s = true → s = pat ++ s.drop pat.length := by
  intro pat
  induction pat with
  | nil => intro s _; simp
  | cons p ps ih =>
    intro s h
    cases s with
    | nil => simp [leadsWith] at h
    | cons c cs =>
      simp only [leadsWith, Bool.and_eq_true, beq_iff_eq] at h
      obtain ⟨rfl, h2⟩ := h
      simpa [List.drop_succ_cons] using congrArg (p :: ·) (ih cs h2)

theorem leadsWith_append_self : ∀ (pat t : List Char), leadsWith pat (pat ++ t) = true := by
  intro pat
  induction pat with
  | nil => intro t; rfl
  | cons p ps ih => intro t; simp [leadsWith, ih]

theorem hasSub_cons (pat c rest) :
    hasSub pat (c :: rest) = (leadsWith pat (c :: rest) || hasSub pat rest) := rfl

theorem hasSub_append_right :
    ∀ (pat a b : List Char), hasSub pat (a ++ b) = false → hasSub pat b = false := by
  intro pat a
  induction a with
  | nil => intro b h; simpa using h
  | cons c a' ih =>
    intro b h
    rw [List.cons_append, hasSub_cons, Bool.or_eq_false_iff] at h
    exact ih b h.2

theorem breakOnSub_eq_none (pat : List Char) :
    ∀ s : List Char, hasSub pat s = false → breakOnSub pat s = none := by
  intro s
  induction s with
  | nil => intro h; simp only [hasSub] at h; simp [breakOnSub, h]
  | cons c rest ih =>
    intro h
    rw [hasSub_cons, Bool.or_eq_false_iff] at h
    rw [breakOnSub, if_neg (by simp [h.1]), ih h.2]

theorem breakOnSub_decomp (pat : List Char) (hpat : pat ≠ []) :
    ∀ (s pre post : List Char), breakOnSub pat s = some (pre, post) →
      s = pre ++ pat ++ post := by
  intro s
  induction s with
  | nil =>
    intro pre post h
    rw [breakOnSub] at h
    by_cases hl : leadsWith pat [] = true
    · exact absurd (leadsWith_eq_nil pat hl) hpat
    · rw [if_neg hl] at h; exact absurd h (by simp)
  | cons c rest ih =>
    intro pre post h
    rw [breakOnSub] at h
    by_cases hl : leadsWith pat (c :: rest) = true
    · rw [if_pos hl] at h
      obtain ⟨rfl, rfl⟩ : pre = [] ∧ List.drop (pat.length - 1) rest = post := by
        simpa using h
      obtain ⟨m, hm⟩ : ∃ m, pat.length = m + 1 := by
        cases hpl : pat.length with
        | zero => exact absurd (List.length_eq_zero.mp hpl) hpat
        | succ m => exact ⟨m, rfl⟩
      have hd := leadsWith_decomp pat (c :: rest) hl
      rw [hm] at hd ⊢
      simpa [List.drop_succ_cons] using hd
    · rw [if_neg hl] at h
      cases hb : breakOnSub pat rest with
      | none => rw [hb] at h; exact absurd h (by simp)
      | some pp =>
        obtain ⟨pre', post'⟩ := pp
        rw [hb] at h
        obtain ⟨rfl, rfl⟩ : c :: pre' = pre ∧ post' = post := by simpa using h
        simpa using congrArg (c :: ·) (ih pre' post' hb)

theorem splitOnSubAux_fuel (sep : List Char) :
    ∀ (f1 : Nat) (s : List Char) (f2 : Nat) (acc : List Char),
      s.length ≤ f1 → s.length ≤ f2 →
      splitOnSubAux sep f1 s acc = splitOnSubAux sep f2 s acc := by
  intro f1
  induction f1 with
  | zero =>
    intro s f2 acc h1 _
    rw [List.length_eq_zero.mp (Nat.le_zero.mp h1)]
    cases f2 <;> rfl
  | succ f1' ih =>
    intro s f2 acc h1 h2
    cases s with
    | nil => cases f2 <;> rfl
    | cons c rest =>
      obtain ⟨f2', rfl⟩ : ∃ f2', f2 = f2' + 1 := by
        cases f2 with
        | zero => simp at h2
        | succ m => exact ⟨m, rfl⟩
      rw [splitOnSubAux, splitOnSubAux]
      by_cases hl : leadsWith sep (c :: rest) = true
      · rw [if_pos hl, if_pos hl,
          ih _ f2' [] (by simp at h1 ⊢; have := List.length_drop (sep.length - 1) rest; omega)
            (by simp at h2 ⊢; have := List.length_drop (sep.length - 1) rest; omega)]
      · rw [if_neg hl, if_neg hl,
          ih _ f2' (c :: acc) (by simp at h1 ⊢; omega) (by simp at h2 ⊢; omega)]

theorem splitOnSubAux_no_match (sep : List Char) :
    ∀ (s : List Char) (fuel : Nat) (acc : List Char), s.length ≤ fuel →
      hasSub sep s = false →
      splitOnSubAux sep fuel s acc = [acc.reverse ++ s] := by
  intro s
  induction s with
  | nil => intro fuel acc _ _; cases fuel <;> simp [splitOnSubAux]
  | cons c rest ih =>
    intro fuel acc hf h
    obtain ⟨f, rfl⟩ : ∃ f, fuel = f + 1 := by
      cases fuel with
      | zero => simp at hf
      | succ m => exact ⟨m, rfl⟩
    rw [hasSub_cons, Bool.or_eq_false_iff] at h
    rw [splitOnSubAux, if_neg (by simp [h.1]),
      ih f (c :: acc) (by simp at hf ⊢; omega) h.2]
    simp

theorem splitOnSubAux_hit (ch : Char) (k : Nat) (hk : 0 < k) (b2 : List Char) :
    ∀ (b1 : List Char) (fuel : Nat) (acc : List Char),
      (b1 ++ List.replicate k ch ++ b2).length ≤ fuel → ch ∉ b1 →
      splitOnSubAux (List.replicate k ch) fuel (b1 ++ List.replicate k ch ++ b2) acc
        = (acc.reverse ++ b1) :: splitOnSub (List.replicate k ch) b2 := by
  intro b1
  induction b1 with
  | nil =>
    intro fuel acc hf _
    obtain ⟨k', rfl⟩ : ∃ k', k = k' + 1 := ⟨k - 1, by omega⟩
    obtain ⟨f, rfl⟩ : ∃ f, fuel = f + 1 := by
      cases fuel with
      | zero => simp [List.replicate_succ] at hf
      | succ m => exact ⟨m, rfl⟩
    rw [List.nil_append, List.replicate_succ, List.cons_append, splitOnSubAux,
      if_pos (by simpa [← List.cons_append, ← List.replicate_succ]
        using leadsWith_append_self (List.replicate (k' + 1) ch) b2)]
    have hdrop : List.drop ((ch :: List.replicate k' ch).length - 1)
        (List.replicate k' ch ++ b2) = b2 := by
      have hlen : (ch :: List.replicate k' ch).length - 1 = (List.replicate k' ch).length := by
        simp
      rw [hlen, List.drop_left]
    rw [hdrop, splitOnSub,
      splitOnSubAux_fuel (ch :: List.replicate k' ch) f b2 b2.length []
        (by simp [List.replicate_succ] at hf; omega) le_rfl]
    simp
  | cons c b1' ih =>
    intro fuel acc hf hmem
    have hc : ch ≠ c := fun hc => hmem (hc ▸ List.mem_cons_self c b1')
    have hm' : ch ∉ b1' := fun hm => hmem (List.mem_cons_of_mem c hm)
    obtain ⟨k', rfl⟩ : ∃ k', k = k' + 1 := ⟨k - 1, by omega⟩
    obtain ⟨f, rfl⟩ : ∃ f, fuel = f + 1 := by
      cases fuel with
      | zero => simp at hf
      | succ m => exact ⟨m, rfl⟩
    rw [List.cons_append, List.cons_append, splitOnSubAux,
      if_neg (by simp [List.replicate_succ, leadsWith, hc]),
      ih f (c :: acc) (by simp at hf ⊢; omega) hm']
    simp

theorem splitOnSub_pair (ch : Char) (k : Nat) (hk : 0 < k) (b1 b2 : List Char)
    (h1 : ch ∉ b1) (h2 : hasSub (List.replicate k ch) b2 = false) :
    splitOnSub (List.replicate k ch) (b1 ++ List.replicate k ch ++ b2) = [b1, b2] := by
  rw [splitOnSub, splitOnSubAux_hit ch k hk b2 b1 _ [] le_rfl h1, splitOnSub,
    splitOnSubAux_no_match _ b2 b2.length [] le_rfl h2]
  simp

/-! ## Lemmas about `trimL` and the Discord chunking loop -/

theorem trimL_length_le (s : List Char) : (trimL s).length ≤ s.length := by
  simp only [trimL, List.length_reverse]
  exact (List.dropWhile_sublist jsWS).length_le.trans
    (by simpa using (List.dropWhile_sublist (l := s) jsWS).length_le)

theorem trimL_decomp (s : List Char) :
    ∃ w1 w2 : List Char,
      (∀ c ∈ w1, jsWS c = true) ∧ (∀ c ∈ w2, jsWS c = true) ∧
      s = w1 ++ trimL s ++ w2 := by
  refine ⟨s.takeWhile jsWS, ((s.dropWhile jsWS).reverse.takeWhile jsWS).reverse,
    fun c hc => List.mem_takeWhile_imp hc,
    fun c hc => List.mem_takeWhile_imp (List.mem_reverse.mp hc), ?_⟩
  conv_lhs => rw [← List.takeWhile_append_dropWhile (p := jsWS) (l := s)]
  rw [List.append_assoc]
  congr 1
  conv_lhs =>
    rw [← List.reverse_reverse (s.dropWhile jsWS),
      ← List.takeWhile_append_dropWhile (p := jsWS) (l := (s.dropWhile jsWS).reverse),
      List.reverse_append]
  rfl

theorem length_filterMap_of_all_some {α β : Type} (f : α → Option β) :
    ∀ l : List α, (∀ x ∈ l, (f x).isSome) → (l.filterMap f).length = l.length := by
  intro l
  induction l with
  | nil => intro _; rfl
  | cons x l' ih =>
    intro h
    obtain ⟨y, hy⟩ := Option.isSome_iff_exists.mp (h x (List.mem_cons_self x l'))
    simp [List.filterMap_cons, hy, ih fun z hz => h z (List.mem_cons_of_mem x hz)]

theorem firstChunk_eq_take (r : List Char) : ∃ k, firstChunk r = r.take k := by
  unfold firstChunk
  split
  · split
    · exact ⟨min ((discordBp r).toNat + 1) chunkSizeD, by rw [List.take_take]⟩
    · exact ⟨chunkSizeD, rfl⟩
  · exact ⟨chunkSizeD, rfl⟩

theorem firstChunk_append_drop (r : List Char) :
    firstChunk r ++ r.drop (firstChunk r).length = r := by
  obtain ⟨k, hk⟩ := firstChunk_eq_take r
  rw [hk, List.length_take]
  rcases Nat.le_total k r.length with h | h
  · rw [Nat.min_eq_left h, List.take_append_drop]
  · rw [Nat.min_eq_right h, List.take_of_length_le h, List.drop_length, List.append_nil]

theorem firstChunk_length_le (r : List Char) : (firstChunk r).length ≤ chunkSizeD := by
  have hcs : chunkSizeD = 1850 := rfl
  unfold firstChunk
  split
  · split <;> (simp only [List.length_take]; omega)
  · simp only [List.length_take]; omega

theorem firstChunk_length_pos (r : List Char) (h : r ≠ []) :
    0 < (firstChunk r).length := by
  have hr : 0 < r.length := List.length_pos.mpr h
  have hcs : chunkSizeD = 1850 := rfl
  unfold firstChunk
  split
  · split <;> (simp only [List.length_take]; omega)
  · simp only [List.length_take]; omega

theorem nextRem_length_lt (r : List Char) (h : r ≠ []) :
    (nextRem r).length < r.length := by
  have h1 := trimL_length_le (r.drop (firstChunk r).length)
  have h2 := firstChunk_length_pos r h
  have hr : 0 < r.length := List.length_pos.mpr h
  have h3 : (r.drop (firstChunk r).length).length = r.length - (firstChunk r).length :=
    List.length_drop _ _
  simp only [nextRem]
  omega

theorem answerChunksGo_nil : ∀ fuel : Nat, answerChunksGo fuel [] = [] := by
  intro fuel
  cases fuel with
  | zero => rfl
  | succ f => simp [answerChunksGo]

theorem answerChunksGo_fuel :
    ∀ (f1 : Nat) (r : List Char) (f2 : Nat), r.length ≤ f1 → r.length ≤ f2 →
      answerChunksGo f1 r = answerChunksGo f2 r := by
  intro f1
  induction f1 with
  | zero =>
    intro r f2 h1 _
    rw [List.length_eq_zero.mp (Nat.le_zero.mp h1), answerChunksGo_nil, answerChunksGo_nil]
  | succ f1' ih =>
    intro r f2 h1 h2
    by_cases h : r = []
    · rw [h, answerChunksGo_nil, answerChunksGo_nil]
    · obtain ⟨f2', rfl⟩ : ∃ f2', f2 = f2' + 1 := by
        cases f2 with
        | zero => exact absurd (List.length_eq_zero.mp (Nat.le_zero.mp h2)) h
        | succ m => exact ⟨m, rfl⟩
      have hlt := nextRem_length_lt r h
      rw [answerChunksGo, answerChunksGo, if_neg h, if_neg h,
        ih (nextRem r) f2' (by omega) (by omega)]

theorem answerChunks_nil : answerChunks [] = [] := rfl

theorem answerChunks_cons (r : List Char) (h : r ≠ []) :
    answerChunks r = firstChunk r :: answerChunks (nextRem r) := by
  obtain ⟨m, hm⟩ : ∃ m, r.length = m + 1 := by
    have := List.length_pos.mpr h
    exact ⟨r.length - 1, by omega⟩
  have hlt := nextRem_length_lt r h
  rw [answerChunks, hm, answerChunksGo, if_neg h, answerChunks,
    answerChunksGo_fuel m (nextRem r) (nextRem r).length (by omega) le_rfl]

theorem length_le_of_mem_answerChunks :
    ∀ (n : Nat) (r c : List Char), r.length ≤ n → c ∈ answerChunks r →
      c.length ≤ chunkSizeD := by
  intro n
  induction n with
  | zero =>
    intro r c hr hm
    rw [List.length_eq_zero.mp (Nat.le_zero.mp hr), answerChunks_nil] at hm
    exact absurd hm (List.not_mem_nil c)
  | succ n ih =>
    intro r c hr hm
    by_cases h : r = []
    · rw [h, answerChunks_nil] at hm
      exact absurd hm (List.not_mem_nil c)
    · rw [answerChunks_cons r h] at hm
      rcases List.mem_cons.mp hm with rfl | hm'
      · exact firstChunk_length_le r
      · exact ih (nextRem r) c (by have := nextRem_length_lt r h; omega) hm'

theorem mem_answerChunks_length {r c : List Char} (h : c ∈ answerChunks r) :
    c.length ≤ chunkSizeD :=
  length_le_of_mem_answerChunks r.length r c le_rfl h

/-! ## Lemmas about `Reassembles` -/

theorem Reassembles.append_ws {cs : List (List Char)} {a t : List Char}
    (h : Reassembles cs a) (ht : ∀ c ∈ t, jsWS c = true) :
    Reassembles cs (a ++ t) := by
  induction h with
  | ws w hw =>
    exact Reassembles.ws (w ++ t) fun c hc =>
      (List.mem_append.mp hc).elim (hw c) (ht c)
  | cons c w rest cs' hw _ ih =>
    rw [List.append_assoc (c ++ w) rest t]
    exact Reassembles.cons c w (rest ++ t) cs' hw ih

theorem reassembles_chunks_aux :
    ∀ (n : Nat) (a : List Char), a.length ≤ n → Reassembles (answerChunks a) a := by
  intro n
  induction n with
  | zero =>
    intro a ha
    rw [List.length_eq_zero.mp (Nat.le_zero.mp ha), answerChunks_nil]
    exact Reassembles.ws [] (by simp)
  | succ n ih =>
    intro a ha
    by_cases h : a = []
    · rw [h, answerChunks_nil]
      exact Reassembles.ws [] (by simp)
    · rw [answerChunks_cons a h]
      obtain ⟨w1, w2, hw1, hw2, hd⟩ := trimL_decomp (a.drop (firstChunk a).length)
      have hrec : Reassembles (answerChunks (nextRem a)) (nextRem a ++ w2) :=
        (ih (nextRem a) (by have := nextRem_length_lt a h; omega)).append_ws hw2
      have heq : a = firstChunk a ++ w1 ++ (nextRem a ++ w2) := by
        conv_lhs => rw [← firstChunk_append_drop a, hd]
        simp only [nextRem, List.append_assoc]
      have hout := Reassembles.cons (firstChunk a) w1 (nextRem a ++ w2)
        (answerChunks (nextRem a)) hw1 hrec
      rwa [← heq] at hout

/-! ## Lemmas about the indexed traversals -/

theorem mem_mapWithIdx {f : Nat → List Char → List Char} :
    ∀ (l : List (List Char)) (i0 : Nat) (b : List Char),
      b ∈ mapWithIdx f i0 l → ∃ j c, j < l.length ∧ c ∈ l ∧ b = f (i0 + j) c := by
  intro l
  induction l with
  | nil => intro i0 b hb; exact absurd hb (List.not_mem_nil b)
  | cons c cs ih =>
    intro i0 b hb
    rcases List.mem_cons.mp hb with rfl | hb'
    · exact ⟨0, c, by simp, List.mem_cons_self c cs, by simp⟩
    · obtain ⟨j, c', hj, hc', rfl⟩ := ih (i0 + 1) b hb'
      exact ⟨j + 1, c', by simpa using Nat.succ_lt_succ hj,
        List.mem_cons_of_mem c hc', by rw [Nat.add_assoc, Nat.add_comm 1 j]⟩

theorem concatIdx_cons (f : Nat → List (List Char)) (i : Nat) (l : List Nat) :
    concatIdx f (i :: l) = f i ++ concatIdx f l := rfl

theorem concatIdx_append (f : Nat → List (List Char)) :
    ∀ l1 l2 : List Nat, concatIdx f (l1 ++ l2) = concatIdx f l1 ++ concatIdx f l2 := by
  intro l1
  induction l1 with
  | nil => intro l2; rfl
  | cons i l1' ih =>
    intro l2
    rw [List.cons_append, concatIdx_cons, concatIdx_cons, ih, List.append_assoc]

theorem range_decomp : ∀ (n j : Nat), j < n →
    ∃ post, List.range n = List.range j ++ j :: post := by
  intro n
  induction n with
  | zero => intro j h; omega
  | succ n ih =>
    intro j h
    by_cases hj : j = n
    · subst hj
      exact ⟨[], by rw [List.range_succ]⟩
    · obtain ⟨post, hp⟩ := ih j (by omega)
      refine ⟨post ++ [n], ?_⟩
      rw [List.range_succ, hp]
      simp

/-! ## Symbolic evaluation lemmas for `lastIdx` on long replicate strings -/

theorem lastIdxAux_nil (pat : List Char) (i : Nat) (acc : Int) :
    lastIdxAux pat [] i acc = acc := rfl

theorem lastIdxAux_skip (c0 : Char) (pat' : List Char) (ch : Char) (h : c0 ≠ ch) :
    ∀ (n : Nat) (t : List Char) (i : Nat) (acc : Int),
      lastIdxAux (c0 :: pat') (List.replicate n ch ++ t) i acc
        = lastIdxAux (c0 :: pat') t (i + n) acc := by
  intro n
  induction n with
  | zero => intro t i acc; simp
  | succ n ih =>
    intro t i acc
    rw [List.replicate_succ, List.cons_append, lastIdxAux,
      if_neg (by simp [leadsWith, h]), ih t (i + 1) acc]
    congr 1
    omega

theorem lastIdx_dot_c2cand :
    lastIdx (strL ". ") (List.replicate 1850 'a') = -1 := by
  rw [lastIdx]
  have h := lastIdxAux_skip '.' [' '] 'a' (by decide) 1850 [] 0 (-1)
  rw [List.append_nil] at h
  exact h

theorem lastIdx_nl_c2cand :
    lastIdx (strL "\n") (List.replicate 1850 'a') = -1 := by
  rw [lastIdx]
  have h := lastIdxAux_skip '\n' [] 'a' (by decide) 1850 [] 0 (-1)
  rw [List.append_nil] at h
  exact h

theorem lastIdx_dot_c5cand :
    lastIdx (strL ". ")
      (List.replicate 1295 'a' ++ ('.' :: ' ' :: List.replicate 553 'b')) = 1295 := by
  have hpat : strL ". " = '.' :: [' '] := rfl
  rw [lastIdx, hpat]
  rw [lastIdxAux_skip '.' [' '] 'a' (by decide) 1295 _ 0 (-1)]
  rw [lastIdxAux,
    if_pos (show leadsWith ('.' :: [' ']) ('.' :: ' ' :: List.replicate 553 'b') = true from rfl)]
  rw [lastIdxAux, if_neg (by
    intro hcontra
    have hred : leadsWith ('.' :: [' ']) (' ' :: List.replicate 553 'b') = false := rfl
    rw [hred] at hcontra
    exact Bool.false_ne_true hcontra)]
  norm_num
  have h := lastIdxAux_skip '.' [' '] 'b' (by decide) 553 [] 1297 1295
  rw [List.append_nil] at h
  rw [h, lastIdxAux_nil]

theorem lastIdx_nl_c5cand :
    lastIdx (strL "\n")
      (List.replicate 1295 'a' ++ ('.' :: ' ' :: List.replicate 553 'b')) = -1 := by
  have hpat : strL "\n" = '\n' :: [] := rfl
  rw [lastIdx, hpat]
  rw [lastIdxAux_skip '\n' [] 'a' (by decide) 1295 _ 0 (-1)]
  rw [lastIdxAux, if_neg (by
    intro hcontra
    have hred : leadsWith ('\n' :: []) ('.' :: ' ' :: List.replicate 553 'b') = false := rfl
    rw [hred] at hcontra
    exact Bool.false_ne_true hcontra)]
  rw [lastIdxAux, if_neg (by
    intro hcontra
    have hred : leadsWith ('\n' :: []) (' ' :: List.replicate 553 'b') = false := rfl
    rw [hred] at hcontra
    exact Bool.false_ne_true hcontra)]
  norm_num
  have h := lastIdxAux_skip '\n' [] 'b' (by decide) 553 [] 1297 (-1)
  rw [List.append_nil] at h
  rw [h, lastIdxAux_nil]

/-! ## Evaluation of the chunking loop on the two long counterexample strings -/

theorem c2cex_len : (List.replicate 1850 'a' ++ strL "   b").length = 1854 := by
  have h4 : (strL "   b").length = 4 := by decide
  simp only [List.length_append, List.length_replicate, h4]

theorem c2cex_cand :
    (List.replicate 1850 'a' ++ strL "   b").take chunkSizeD = List.replicate 1850 'a' :=
  List.take_left' (by norm_num [chunkSizeD])

theorem c2cex_bp : discordBp (List.replicate 1850 'a' ++ strL "   b") = -1 := by
  rw [discordBp, c2cex_cand, lastIdx_dot_c2cand, lastIdx_nl_c2cand]
  rfl

theorem c2cex_firstChunk :
    firstChunk (List.replicate 1850 'a' ++ strL "   b") = List.replicate 1850 'a' := by
  unfold firstChunk
  rw [if_pos (by rw [c2cex_len]; norm_num [chunkSizeD]), c2cex_bp,
    if_neg (by norm_num), c2cex_cand]

theorem c2cex_nextRem :
    nextRem (List.replicate 1850 'a' ++ strL "   b") = strL "b" := by
  rw [nextRem, c2cex_firstChunk, List.drop_left]
  decide

theorem c2cex_chunks :
    answerChunks (List.replicate 1850 'a' ++ strL "   b")
      = [List.replicate 1850 'a', strL "b"] := by
  have hne : (List.replicate 1850 'a' ++ strL "   b") ≠ [] := by
    intro h0
    have hl := congrArg List.length h0
    rw [c2cex_len] at hl
    simp at hl
  rw [answerChunks_cons _ hne, c2cex_firstChunk, c2cex_nextRem]
  have hb : answerChunks (strL "b") = [strL "b"] := by decide
  rw [hb]

theorem c5cex_len :
    ((List.replicate 1295 'a' ++ ('.' :: ' ' :: List.replicate 553 'b')) ++ strL "c").length
      = 1851 := by
  have h1 : (strL "c").length = 1 := by decide
  simp only [List.length_append, List.length_cons, List.length_replicate, h1]

theorem c5cex_cand :
    ((List.replicate 1295 'a' ++ ('.' :: ' ' :: List.replicate 553 'b')) ++ strL "c").take
        chunkSizeD
      = List.replicate 1295 'a' ++ ('.' :: ' ' :: List.replicate 553 'b') :=
  List.take_left' (by simp; norm_num [chunkSizeD])

theorem c5cex_bp :
    discordBp ((List.replicate 1295 'a' ++ ('.' :: ' ' :: List.replicate 553 'b')) ++ strL "c")
      = 1295 := by
  rw [discordBp, c5cex_cand, lastIdx_dot_c5cand, lastIdx_nl_c5cand]
  rfl

/-! ## Helper lemma for the ANSWER_-line step of the group scan -/

theorem scanLine_answer_line (st : GroupState) (t a : List Char)
    (hq : leadsWith qTagL (t ++ cccL ++ a) = false)
    (ha : leadsWith aTagL (t ++ cccL ++ a) = true)
    (ht : ':' ∉ t) (hs : hasSub cccL a = false) (hne : a ≠ []) :
    scanLine st (t ++ cccL ++ a)
      = { st with ans := st.ans ++ [trimL a], inAnswer := true } := by
  rw [scanLine, if_neg (by rw [hq]; exact Bool.false_ne_true), if_pos ha]
  have hsplit : splitOnSub cccL (t ++ cccL ++ a) = [t, a] := by
    have hd : cccL = List.replicate 3 ':' := rfl
    rw [hd]
    exact splitOnSub_pair ':' 3 (by norm_num) t a ht (hd ▸ hs)
  rw [hsplit]
  have hget : ([t, a] : List (List Char)).get? 1 = some a := rfl
  rw [hget]
  have hae : a.isEmpty = false := by
    cases a with
    | nil => exact absurd rfl hne
    | cons x xs => rfl
  simp [hae]

/-! ## The claims -/

/-- C4 counterexample: the block `QUESTION_1:::A --- B\nANSWER_1:::C` has no
line consisting solely of `---`, so under the claim it would be a single
group with question `A --- B`; the code splits it into two groups and the
parsed question is the truncated `A`. -/
theorem c4_counterexample :
    qaGroups (strL "QUESTION_1:::A --- B\nANSWER_1:::C")
        ≠ [strL "QUESTION_1:::A --- B\nANSWER_1:::C"] ∧
    parseQuestions (strL "QUESTION_1:::A --- B\nANSWER_1:::C") = [strL "A"] :=
  ⟨by decide, by decide⟩

/-- C4 (amended): the parser forms its candidate groups by splitting on
every occurrence of the three-character token `---` anywhere in the block
text; an occurrence of `---` inside a question or answer line does start a
new group there. -/
theorem c4_split_on_any_occurrence (b1 b2 : List Char) (h1 : '-' ∉ b1)
    (h2 : hasSub dashes b2 = false)
    (h3 : ¬(trimL b1).isEmpty) (h4 : ¬(trimL b2).isEmpty) :
    qaGroups (b1 ++ dashes ++ b2) = [b1, b2] := by
  rw [qaGroups]
  have hd : dashes = List.replicate 3 '-' := rfl
  have hsplit : splitOnSub dashes (b1 ++ dashes ++ b2) = [b1, b2] := by
    rw [hd]
    exact splitOnSub_pair '-' 3 (by norm_num) b1 b2 h1 (hd ▸ h2)
  rw [hsplit]
  have hb1 : (trimL b1).isEmpty = false := by
    cases hb : (trimL b1).isEmpty
    · rfl
    · exact absurd hb h3
  have hb2 : (trimL b2).isEmpty = false := by
    cases hb : (trimL b2).isEmpty
    · rfl
    · exact absurd hb h4
  simp [List.filter, hb1, hb2]

/-- C4 witness: the amended split applied to the counterexample block. -/
theorem c4_split_on_any_occurrence_witness :
    ('-' ∉ strL "QUESTION_1:::A ") ∧
    (hasSub dashes (strL " B\nANSWER_1:::C") = false) ∧
    qaGroups (strL "QUESTION_1:::A " ++ dashes ++ strL " B\nANSWER_1:::C")
      = [strL "QUESTION_1:::A ", strL " B\nANSWER_1:::C"] :=
  ⟨by decide, by decide,
    c4_split_on_any_occurrence _ _ (by decide) (by decide) (by decide) (by decide)⟩

/-- C6 counterexample: in a group with two ANSWER_ lines the code appends to
the answer buffer rather than restarting it, so the first ANSWER_ text
(`first`) still appears in the record's answer, contradicting the claim
that the last ANSWER_ line restarts the buffer. -/
theorem c6_counterexample :
    parseAnswers (strL "QUESTION_1:::Q\nANSWER_1:::first\nANSWER_2:::second")
      = [strL "first\n\nsecond"] ∧
    hasSub (strL "first")
        ((parseAnswers
          (strL "QUESTION_1:::Q\nANSWER_1:::first\nANSWER_2:::second")).getD 0 [])
      = true ∧
    strL "first\n\nsecond" ≠ strL "second" :=
  ⟨by decide, by decide, by decide⟩

/-- C6 (amended): a group's ANSWER_ lines share a single answer buffer to
which each ANSWER_ line appends its trimmed payload; the buffer is not
restarted, and the text of earlier ANSWER_ lines remains in the record's
answer, joined with the blank-line separator. -/
theorem c6_answer_buffer_appends (a1 a2 : List Char)
    (hs1 : hasSub cccL a1 = false) (hs2 : hasSub cccL a2 = false)
    (h1 : a1 ≠ []) (h2 : a2 ≠ []) :
    (scanLines [strL "QUESTION_1:::Q",
        strL "ANSWER_1:::" ++ a1, strL "ANSWER_2:::" ++ a2]).ans
      = [trimL a1, trimL a2] ∧
    List.intercalate (strL "\n\n") [trimL a1, trimL a2]
      = trimL a1 ++ strL "\n\n" ++ trimL a2 := by
  constructor
  · rw [scanLines]
    simp only [List.foldl_cons, List.foldl_nil]
    have hst1 : scanLine initGS (strL "QUESTION_1:::Q") = ⟨strL "Q", [], false⟩ := by decide
    rw [hst1]
    have e1 : strL "ANSWER_1:::" = strL "ANSWER_1" ++ cccL := rfl
    have e2 : strL "ANSWER_2:::" = strL "ANSWER_2" ++ cccL := rfl
    rw [e1, e2,
      scanLine_answer_line _ (strL "ANSWER_1") a1 rfl rfl (by decide) hs1 h1,
      scanLine_answer_line _ (strL "ANSWER_2") a2 rfl rfl (by decide) hs2 h2]
    simp
  · have hj : List.intercalate (strL "\n\n") [trimL a1, trimL a2]
        = trimL a1 ++ (strL "\n\n" ++ (trimL a2 ++ [])) := rfl
    rw [hj]
    simp [List.append_assoc]

/-- C6 witness: the appended two-answer buffer on concrete payloads. -/
theorem c6_answer_buffer_appends_witness :
    (hasSub cccL (strL "first") = false) ∧ (hasSub cccL (strL "second") = false) ∧
    ((scanLines [strL "QUESTION_1:::Q",
        strL "ANSWER_1:::" ++ strL "first", strL "ANSWER_2:::" ++ strL "second"]).ans
      = [trimL (strL "first"), trimL (strL "second")] ∧
     List.intercalate (strL "\n\n") [trimL (strL "first"), trimL (strL "second")]
      = trimL (strL "first") ++ strL "\n\n" ++ trimL (strL "second")) :=
  ⟨by decide, by decide,
    c6_answer_buffer_appends (strL "first") (strL "second")
      (by decide) (by decide) (by decide) (by decide)⟩

/-- C7 counterexample: on scenario A the Telegram handler sends
`"\n1. What caused X?\n\nAnswer: Because Y."` — with a leading newline — so
the emitted Fragment is not exactly the claimed
`"1. What caused X?\n\nAnswer: Because Y."`. -/
theorem c7_counterexample :
    teleTrace (startFullT
        ++ strL "QUESTION_1:::What caused X?\nANSWER_1:::Because Y.\n---" ++ endFullT)
      ≠ [strL "1. What caused X?\n\nAnswer: Because Y."] := by
  decide

/-- C7 (amended): on the block with the single group
`QUESTION_1:::What caused X?` / `ANSWER_1:::Because Y.`, parse produces
exactly one record with question `What caused X?` and answer `Because Y.`,
and the paragraph policy emits exactly one Fragment whose text is exactly
`"\n1. What caused X?\n\nAnswer: Because Y."` (leading newline included). -/
theorem c7_scenario_a :
    parseQuestions (strL "QUESTION_1:::What caused X?\nANSWER_1:::Because Y.\n---")
      = [strL "What caused X?"] ∧
    parseAnswers (strL "QUESTION_1:::What caused X?\nANSWER_1:::Because Y.\n---")
      = [strL "Because Y."] ∧
    teleTrace (startFullT
        ++ strL "QUESTION_1:::What caused X?\nANSWER_1:::Because Y.\n---" ++ endFullT)
      = [strL "\n1. What caused X?\n\nAnswer: Because Y."] :=
  ⟨by decide, by decide, by decide⟩

/-- C8: for stdout that contains the start marker pattern but no matching
end marker pattern (and likewise whenever the extraction regex fails),
`extract` returns `none` rather than raising, and the handler invokes the
delivery callback exactly once, with the fixed no-results notice. -/
theorem c8_no_end_marker (s : List Char)
    (h : (hasSub startFullT s = true ∧ hasSub endFullT s = false) ∨ extractBlock s = none) :
    extractBlock s = none ∧ teleTrace s = [noBlockMsg] := by
  have hx : extractBlock s = none := by
    rcases h with ⟨_, hend⟩ | hnone
    · cases hb : breakOnSub startFullT s with
      | none => simp [extractBlock, hb]
      | some pp =>
        obtain ⟨pre, rest⟩ := pp
        have hdec := breakOnSub_decomp startFullT (by decide) s pre rest hb
        have h2 : hasSub endFullT (pre ++ startFullT ++ rest) = false := hdec ▸ hend
        have h3 : hasSub endFullT rest = false := hasSub_append_right _ _ _ h2
        simp [extractBlock, hb, breakOnSub_eq_none endFullT rest h3]
    · exact hnone
  exact ⟨hx, by simp [teleTrace, hx]⟩

/-- C8 witness: stdout consisting of the start marker pattern followed by
junk, with no end marker. -/
theorem c8_no_end_marker_witness :
    (hasSub startFullT (startFullT ++ strL "oops") = true ∧
     hasSub endFullT (startFullT ++ strL "oops") = false) ∧
    (extractBlock (startFullT ++ strL "oops") = none ∧
     teleTrace (startFullT ++ strL "oops") = [noBlockMsg]) :=
  ⟨⟨by decide, by decide⟩, c8_no_end_marker _ (Or.inl ⟨by decide, by decide⟩)⟩

/-- C9: the Telegram dispatch loop is strictly sequential in record order:
for record indices `i < j` the full message trace decomposes as a prefix,
then all of record `i`'s messages, then a middle, then all of record `j`'s
messages, then a suffix — every delivery for record `i` happens strictly
before any delivery for record `j`. -/
theorem c9_dispatch_order (qs ansL : List (List Char)) (i j : Nat)
    (hij : i < j) (hj : j < min qs.length ansL.length) :
    ∃ pre mid post,
      teleDispatch qs ansL
        = pre ++ teleRecordMsgs i (qs.getD i []) (ansL.getD i [])
            ++ mid ++ teleRecordMsgs j (qs.getD j []) (ansL.getD j []) ++ post := by
  obtain ⟨post1, hp1⟩ := range_decomp (min qs.length ansL.length) j hj
  obtain ⟨post2, hp2⟩ := range_decomp j i hij
  refine ⟨concatIdx (fun k => teleRecordMsgs k (qs.getD k []) (ansL.getD k [])) (List.range i),
    concatIdx (fun k => teleRecordMsgs k (qs.getD k []) (ansL.getD k [])) post2,
    concatIdx (fun k => teleRecordMsgs k (qs.getD k []) (ansL.getD k [])) post1, ?_⟩
  rw [teleDispatch, hp1, hp2]
  simp only [concatIdx_append, concatIdx_cons, List.cons_append, List.append_assoc]

/-- C9 witness: a two-record dispatch, records 0 and 1. -/
theorem c9_dispatch_order_witness :
    (0 < 1) ∧
    (1 < min ([strL "q1", strL "q2"] : List (List Char)).length
        ([strL "a1", strL "a2"] : List (List Char)).length) ∧
    (∃ pre mid post,
      teleDispatch [strL "q1", strL "q2"] [strL "a1", strL "a2"]
        = pre ++ teleRecordMsgs 0 (([strL "q1", strL "q2"] : List (List Char)).getD 0 [])
              (([strL "a1", strL "a2"] : List (List Char)).getD 0 [])
            ++ mid ++ teleRecordMsgs 1 (([strL "q1", strL "q2"] : List (List Char)).getD 1 [])
              (([strL "a1", strL "a2"] : List (List Char)).getD 1 []) ++ post) :=
  ⟨by decide, by decide,
    c9_dispatch_order [strL "q1", strL "q2"] [strL "a1", strL "a2"] 0 1
      (by decide) (by decide)⟩

/-- C10: every iteration of the length-bounded splitting loop emits a
non-empty chunk and strictly shrinks the remaining answer, so the `while`
loop terminates on every input. -/
theorem c10_loop_progress (r : List Char) (h : r ≠ []) :
    answerChunks r = firstChunk r :: answerChunks (nextRem r) ∧
    firstChunk r ≠ [] ∧ (nextRem r).length < r.length :=
  ⟨answerChunks_cons r h,
    fun h0 => by
      have hp := firstChunk_length_pos r h
      rw [h0] at hp
      simp at hp,
    nextRem_length_lt r h⟩

/-- C10 witness: one loop step on a one-character answer. -/
theorem c10_loop_progress_witness :
    (strL "x" ≠ []) ∧
    (answerChunks (strL "x") = firstChunk (strL "x") :: answerChunks (nextRem (strL "x")) ∧
     firstChunk (strL "x") ≠ [] ∧ (nextRem (strL "x")).length < (strL "x").length) :=
  ⟨by decide, c10_loop_progress (strL "x") (by decide)⟩

/-- C1 counterexample: a well-formed RawOutput whose block has one group
with only a QUESTION_ tag and one group with only an ANSWER_ tag.  No group
contains both tags, so the claim predicts zero records, but the parser
collects the stray question and the stray answer into its two parallel
arrays and the dispatch loop pairs them into one (mismatched) record. -/
theorem c1_counterexample :
    extractBlock (startFullT ++ strL "QUESTION_1:::Q\n---\nANSWER_1:::A" ++ endFullT)
      = some (strL "QUESTION_1:::Q\n---\nANSWER_1:::A") ∧
    teleRecordCount (strL "QUESTION_1:::Q\n---\nANSWER_1:::A") = 1 ∧
    ((qaGroups (strL "QUESTION_1:::Q\n---\nANSWER_1:::A")).filter
        (fun p => !(scanGroup p).q.isEmpty && !(scanGroup p).ans.isEmpty)).length = 0 :=
  ⟨by decide, by decide, by decide⟩

/-- C1 (amended): the record count is `min(#groups yielding a question,
#groups yielding an answer)`; in particular, when every non-empty
`---`-separated group yields both a question and an answer, extract
followed by parse yields exactly one record per group.  (A group missing
one tag still contributes its present field to the corresponding parallel
array and shifts the pairing of later groups, as the counterexample
shows.) -/
theorem c1_record_count (raw block : List Char)
    (_hx : extractBlock raw = some block)
    (hall : ∀ p ∈ qaGroups block,
      ¬(scanGroup p).q.isEmpty ∧ ¬(scanGroup p).ans.isEmpty) :
    teleRecordCount block = (qaGroups block).length := by
  have hq : (parseQuestions block).length = (qaGroups block).length := by
    rw [parseQuestions]
    apply length_filterMap_of_all_some
    intro p hp
    have h1 : (scanGroup p).q.isEmpty = false := by
      cases hqe : (scanGroup p).q.isEmpty
      · rfl
      · exact absurd hqe (hall p hp).1
    simp [h1]
  have ha : (parseAnswers block).length = (qaGroups block).length := by
    rw [parseAnswers]
    apply length_filterMap_of_all_some
    intro p hp
    have h1 : (scanGroup p).ans.isEmpty = false := by
      cases hae : (scanGroup p).ans.isEmpty
      · rfl
      · exact absurd hae (hall p hp).2
    simp [h1]
  rw [teleRecordCount, hq, ha, Nat.min_self]

/-- C1 witness: a well-formed RawOutput with two fully tagged groups. -/
theorem c1_record_count_witness :
    (extractBlock (startFullT
        ++ strL "QUESTION_1:::Q1\nANSWER_1:::A1\n---\nQUESTION_2:::Q2\nANSWER_2:::A2\n"
        ++ endFullT)
      = some (strL "QUESTION_1:::Q1\nANSWER_1:::A1\n---\nQUESTION_2:::Q2\nANSWER_2:::A2\n")) ∧
    (∀ p ∈ qaGroups
        (strL "QUESTION_1:::Q1\nANSWER_1:::A1\n---\nQUESTION_2:::Q2\nANSWER_2:::A2\n"),
      ¬(scanGroup p).q.isEmpty ∧ ¬(scanGroup p).ans.isEmpty) ∧
    teleRecordCount
        (strL "QUESTION_1:::Q1\nANSWER_1:::A1\n---\nQUESTION_2:::Q2\nANSWER_2:::A2\n")
      = (qaGroups
        (strL "QUESTION_1:::Q1\nANSWER_1:::A1\n---\nQUESTION_2:::Q2\nANSWER_2:::A2\n")).length :=
  ⟨by decide, by decide,
    c1_record_count
      (startFullT
        ++ strL "QUESTION_1:::Q1\nANSWER_1:::A1\n---\nQUESTION_2:::Q2\nANSWER_2:::A2\n"
        ++ endFullT)
      (strL "QUESTION_1:::Q1\nANSWER_1:::A1\n---\nQUESTION_2:::Q2\nANSWER_2:::A2\n")
      (by decide) (by decide)⟩

/-- C2 counterexample: for the answer `'a'*1850 ++ "   b"` the loop's hard
cut is followed by `.trim()`, which absorbs all three spaces; the chunks
are `'a'*1850` and `"b"`, and no re-insertion of at most one whitespace
character per chunk can reproduce the original answer. -/
theorem c2_counterexample :
    ¬ SpecRoundTripSingleWs (List.replicate 1850 'a' ++ strL "   b") := by
  rintro ⟨ws, hlen, hall, heq⟩
  rw [c2cex_chunks] at hlen heq
  obtain ⟨w1, w2, rfl⟩ := List.length_eq_two.mp hlen
  have h1 := (hall w1 (by simp)).1
  have h2 := (hall w2 (by simp)).1
  have hjoin : joinWithWs [List.replicate 1850 'a', strL "b"] [w1, w2]
      = List.replicate 1850 'a' ++ w1 ++ (strL "b" ++ w2 ++ []) := rfl
  rw [hjoin] at heq
  have hlenA := congrArg List.length heq
  rw [c2cex_len] at hlenA
  have hsb : (strL "b").length = 1 := by decide
  simp only [List.length_append, List.length_replicate, List.length_nil, hsb] at hlenA
  omega

/-- C2 (amended): concatenating the chunk texts with the whitespace run
absorbed at each cut re-inserted after its chunk — a run that may be empty
or several characters long, not necessarily a single character —
reproduces the answer exactly, with no other characters dropped or
duplicated. -/
theorem c2_roundtrip_ws_runs (a : List Char) : Reassembles (answerChunks a) a :=
  reassembles_chunks_aux a.length a le_rfl

/-- C3 counterexample: for a 2000-character question the header-only
`Answer (part 1):` Fragment is 2022 characters long, exceeding the
1900-character bound the claim asserts for every Fragment. -/
theorem c3_counterexample :
    ∃ f ∈ discordRecordMsgs 0 (List.replicate 2000 'q') (strL "a"), 1900 < f.length := by
  have e1 : (strL "\n").length = 1 := by decide
  have e2 : (natL 1).length = 1 := by decide
  have e3 : (strL ". ").length = 2 := by decide
  have e4 : (strL "\n\n").length = 2 := by decide
  have e5 : (strL "Answer: ").length = 8 := by decide
  have e6 : (strL "a").length = 1 := by decide
  have e7 : (strL "\n\nAnswer (part 1):").length = 18 := by decide
  have hmt : 1900 < (discordMessageText 0 (List.replicate 2000 'q') (strL "a")).length := by
    rw [discordMessageText]
    simp only [List.length_append, List.length_replicate, e1, e2, e3, e4, e5, e6]
    omega
  refine ⟨discordHeader 0 (List.replicate 2000 'q'), ?_, ?_⟩
  · rw [discordRecordMsgs, if_pos hmt]
    exact List.mem_cons_self _ _
  · rw [discordHeader]
    simp only [List.length_append, List.length_replicate, e1, e2, e3, e7]
    omega

/-- C3 (amended): under the Discord length-bounded policy every message
sent for a record either is the header-only `Answer (part 1):` message —
whose length grows with the question and is not bounded — or has length at
most 1900: the single-message branch is guarded by the 1900 check, an
unlabeled first chunk is at most 1850 characters, and a labeled chunk adds
a 16-character label plus the part number's digits (at most 34 digits
needed here, i.e. fewer than 10^34 parts). -/
theorem c3_fragment_length_bound (i : Nat) (q a : List Char)
    (hparts : ∀ j, j < (answerChunks a).length → (natL (j + 1)).length ≤ 34) :
    ∀ f ∈ discordRecordMsgs i q a, f = discordHeader i q ∨ f.length ≤ 1900 := by
  intro f hf
  rw [discordRecordMsgs] at hf
  by_cases hlen : 1900 < (discordMessageText i q a).length
  · rw [if_pos hlen] at hf
    rcases List.mem_cons.mp hf with rfl | hf'
    · exact Or.inl rfl
    · right
      rw [discordAnswerMsgs] at hf'
      obtain ⟨j, c, hj, hc, rfl⟩ := mem_mapWithIdx _ 0 _ hf'
      have hclen : c.length ≤ chunkSizeD := mem_answerChunks_length hc
      have hcs : chunkSizeD = 1850 := rfl
      rw [labelChunk]
      by_cases hj0 : 0 + j = 0
      · rw [if_pos hj0]
        omega
      · rw [if_neg hj0]
        have hd : (natL (0 + j + 1)).length ≤ 34 := by
          have := hparts j hj
          simpa using this
        have e1 : (strL "Answer (part ").length = 13 := by decide
        have e2 : (strL "): ").length = 3 := by decide
        simp only [List.length_append, e1, e2]
        omega
  · rw [if_neg hlen] at hf
    rcases List.mem_cons.mp hf with rfl | hf'
    · exact Or.inr (by omega)
    · exact absurd hf' (List.not_mem_nil f)

/-- C3 witness: a short record, whose chunk part numbers are one digit. -/
theorem c3_fragment_length_bound_witness :
    (∀ j, j < (answerChunks (strL "hello")).length → (natL (j + 1)).length ≤ 34) ∧
    (∀ f ∈ discordRecordMsgs 0 (strL "Q") (strL "hello"),
      f = discordHeader 0 (strL "Q") ∨ f.length ≤ 1900) :=
  ⟨by decide, c3_fragment_length_bound 0 (strL "Q") (strL "hello") (by decide)⟩

/-- C5 counterexample: a remaining answer whose best breakpoint offset is
exactly 1295 = 0.7 × 1850.  The claim (cut iff offset ≥ 0.7 × budget)
predicts the breakpoint cut, but the code's strict `breakPoint >
chunkSize * 0.7` comparison keeps the hard cut at 1850 characters. -/
theorem c5_counterexample :
    discordBp ((List.replicate 1295 'a' ++ ('.' :: ' ' :: List.replicate 553 'b')) ++ strL "c")
      = 1295 ∧
    specBreakpointChunk
        ((List.replicate 1295 'a' ++ ('.' :: ' ' :: List.replicate 553 'b')) ++ strL "c")
      ≠ firstChunk
        ((List.replicate 1295 'a' ++ ('.' :: ' ' :: List.replicate 553 'b')) ++ strL "c") := by
  refine ⟨c5cex_bp, ?_⟩
  intro heq
  have hspec : specBreakpointChunk
      ((List.replicate 1295 'a' ++ ('.' :: ' ' :: List.replicate 553 'b')) ++ strL "c")
      = (List.replicate 1295 'a' ++ ('.' :: ' ' :: List.replicate 553 'b')).take 1296 := by
    unfold specBreakpointChunk
    rw [if_pos (by rw [c5cex_len]; norm_num [chunkSizeD]), c5cex_bp, if_pos (by norm_num),
      c5cex_cand, show ((1295 : Int).toNat + 1) = 1296 from rfl]
  have hcode : firstChunk
      ((List.replicate 1295 'a' ++ ('.' :: ' ' :: List.replicate 553 'b')) ++ strL "c")
      = List.replicate 1295 'a' ++ ('.' :: ' ' :: List.replicate 553 'b') := by
    unfold firstChunk
    rw [if_pos (by rw [c5cex_len]; norm_num [chunkSizeD]), c5cex_bp, if_neg (by norm_num),
      c5cex_cand]
  rw [hspec, hcode] at heq
  have hl := congrArg List.length heq
  rw [List.length_take] at hl
  have hclen : (List.replicate 1295 'a' ++ ('.' :: ' ' :: List.replicate 553 'b')).length
      = 1850 := by simp
  rw [hclen] at hl
  omega

/-- C5 (amended): when more answer remains beyond the 1850-character
budget, the loop cuts the chunk at the last `". "`/newline breakpoint if
and only if the breakpoint offset is strictly greater than 1295 (the
IEEE-754 value of `1850 * 0.7`, which coincides with the exact real
product); at an offset of exactly 1295, and below, the hard cut at 1850
characters is kept. -/
theorem c5_breakpoint_strict (r : List Char) (hr : chunkSizeD < r.length) :
    (1295 < discordBp r →
      answerChunks r
        = (r.take chunkSizeD).take ((discordBp r).toNat + 1)
            :: answerChunks (trimL (r.drop
                ((r.take chunkSizeD).take ((discordBp r).toNat + 1)).length))) ∧
    (discordBp r ≤ 1295 →
      answerChunks r
        = r.take chunkSizeD :: answerChunks (trimL (r.drop (r.take chunkSizeD).length))) := by
  have hne : r ≠ [] := by
    intro h0
    rw [h0] at hr
    simp [chunkSizeD] at hr
  constructor
  · intro hbp
    have hfc : firstChunk r = (r.take chunkSizeD).take ((discordBp r).toNat + 1) := by
      unfold firstChunk
      rw [if_pos hr, if_pos hbp]
    rw [answerChunks_cons r hne, nextRem, hfc]
  · intro hbp
    have hfc : firstChunk r = r.take chunkSizeD := by
      unfold firstChunk
      rw [if_pos hr, if_neg (by omega)]
    rw [answerChunks_cons r hne, nextRem, hfc]

/-- C5 witness: a breakpoint-free 1851-character answer takes the hard
cut. -/
theorem c5_breakpoint_strict_witness :
    (chunkSizeD < (List.replicate 1851 'x').length) ∧
    ((1295 < discordBp (List.replicate 1851 'x') →
      answerChunks (List.replicate 1851 'x')
        = ((List.replicate 1851 'x').take chunkSizeD).take
              ((discordBp (List.replicate 1851 'x')).toNat + 1)
            :: answerChunks (trimL ((List.replicate 1851 'x').drop
                (((List.replicate 1851 'x').take chunkSizeD).take
                  ((discordBp (List.replicate 1851 'x')).toNat + 1)).length))) ∧
     (discordBp (List.replicate 1851 'x') ≤ 1295 →
      answerChunks (List.replicate 1851 'x')
        = (List.replicate 1851 'x').take chunkSizeD
            :: answerChunks (trimL ((List.replicate 1851 'x').drop
                ((List.replicate 1851 'x').take chunkSizeD).length)))) :=
  ⟨by simp [chunkSizeD], c5_breakpoint_strict _ (by simp [chunkSizeD])⟩
